import Mathlib

/-!
Shallow embedding of the quantvat repository's core logic:

* `src/crypto_vat_app/engines/futures_engine.py` — `PDFParser` (the
  `FINANCIAL_PATTERN` regex, line classification, ticker cleaning, the
  forward-cursor name/ticker pairing, `extract`) and
  `DataProcessor.generate_html_report` (the cross-market reconciler).
* `src/src/services/spot_engine.py` — the per-symbol consensus step of
  `spot_volume_tracker` (sovereign CoinGecko rule / multi-source fallback).

Python floats are modelled as exact rationals (`ℚ`); strings as Lean
`String` / `List Char`.  Python's `re` backtracking semantics (leftmost
match, greedy quantifiers, left-biased alternation) are reproduced by an
explicit priority-ordered backtracking matcher specialised to the one
pattern the code uses.
-/

namespace QuantVat

/-- Character class `[A-Z0-9]` used by `re.sub(r'[^A-Z0-9]', '', ...)`
(codepoints 65–90 and 48–57). -/
def upAl (c : Char) : Bool :=
  (65 ≤ c.toNat && c.toNat ≤ 90) || (48 ≤ c.toNat && c.toNat ≤ 57)

/-- `re.sub(r'[^A-Z0-9]', '', str(x).upper())` as used in
`PDFParser.extract` and `_clean_ticker_strict` (ASCII model of
`str.upper`). -/
def cleanUpper (s : String) : String :=
  String.mk ((s.toList.map Char.toUpper).filter upAl)

/-- `PDFParser._clean_ticker_strict`: reject raw text longer than 15
characters, strip non-`[A-Z0-9]` after uppercasing, accept cleaned length
within `[2, 12]`. -/
def cleanTickerStrict (text : String) : Option String :=
  if text.length > 15 then none
  else if 2 ≤ (cleanUpper text).length ∧ (cleanUpper text).length ≤ 12 then
    some (cleanUpper text)
  else none

/-! ## Backtracking matcher for `PDFParser.FINANCIAL_PATTERN`

The pattern (Python `re`, applied with `.search`) is

    (\$?[+-]?[\d,\.]+[kKmMbB]?)\s+
    (\$?[+-]?[\d,\.]+[kKmMbB]?)\s+
    (?:([+\-]?[\d\.\,]+\%?|[-‚Äìî]|N\/A)\s+)?
    (?:([+\-]?[\d\.\,]+\%?|[-‚Äìî]|N\/A)\s+)?
    (\d*\.?\d+)

(the bracketed dash alternative is the literal five characters present in
the source file).  Each quantified sub-pattern is a character class, so a
backtracking engine's choice points are exactly "how many class characters
to consume"; greedy order is longest-first, alternation is left-biased,
and `search` tries start positions left to right.  `\d` and `\s` are
modelled as ASCII digits / ASCII whitespace. -/

/-- All ways to match `p?` (greedy: consuming first), as
(consumed, rest) pairs in priority order. -/
def optCharCl (p : Char → Bool) : List Char → List (List Char × List Char)
  | [] => [([], [])]
  | c :: rest => if p c then [([c], rest), ([], c :: rest)] else [([], c :: rest)]

/-- All ways to match `p+` (greedy: longest first). -/
def many1Cl (p : Char → Bool) (l : List Char) : List (List Char × List Char) :=
  let pre := l.takeWhile p
  let rest := l.dropWhile p
  (List.range pre.length).map (fun k =>
    let n := pre.length - k
    (pre.take n, pre.drop n ++ rest))

/-- All ways to match `p*` (greedy: longest first, down to zero). -/
def many0Cl (p : Char → Bool) (l : List Char) : List (List Char × List Char) :=
  let pre := l.takeWhile p
  let rest := l.dropWhile p
  (List.range (pre.length + 1)).map (fun k =>
    let n := pre.length - k
    (pre.take n, pre.drop n ++ rest))

/-- First success of a continuation over a priority-ordered list of
alternatives: the backtracking engine's search order. -/
def firstSome (xs : List α) (f : α → Option β) : Option β :=
  match xs with
  | [] => none
  | a :: t => match f a with
    | some b => some b
    | none => firstSome t f

/-- `\d` (ASCII model of Python). -/
def isDig (c : Char) : Bool := c.isDigit

/-- `[\d,\.]` / `[\d\.\,]`. -/
def numCl (c : Char) : Bool := c.isDigit || c = ',' || c = '.'

/-- `[kKmMbB]`. -/
def sufCl (c : Char) : Bool :=
  c = 'k' || c = 'K' || c = 'm' || c = 'M' || c = 'b' || c = 'B'

/-- `[+-]` / `[+\-]`. -/
def signCl (c : Char) : Bool := c = '+' || c = '-'

/-- The literal dash-alternative class in the source: a hyphen plus the
four mojibake characters U+201A, U+00C4, U+00EC, U+00EE. -/
def dashCl (c : Char) : Bool :=
  c = '-' || c = '‚' || c = 'Ä' || c = 'ì' || c = 'î'

/-- `\s` (ASCII model of Python). -/
def wsCl (c : Char) : Bool :=
  c = ' ' || c = '\t' || c = '\n' || c = '\r' || c = '\x0b' || c = '\x0c'

/-- Captured groups of a `FINANCIAL_PATTERN` match: groups 1, 2, 5 always
capture; the optional groups 3 and 4 may be `none`. -/
structure FinGroups where
  g1 : List Char
  g2 : List Char
  g3 : Option (List Char)
  g4 : Option (List Char)
  g5 : List Char
deriving DecidableEq, Repr

/-- `\$?[+-]?[\d,\.]+[kKmMbB]?` — all matches, priority order. -/
def moneyTok (l : List Char) : List (List Char × List Char) :=
  (optCharCl (· = '$') l).flatMap fun ar =>
  (optCharCl signCl ar.2).flatMap fun br =>
  (many1Cl numCl br.2).flatMap fun cr =>
  (optCharCl sufCl cr.2).map fun dr =>
  (ar.1 ++ br.1 ++ cr.1 ++ dr.1, dr.2)

/-- `[+\-]?[\d\.\,]+\%?` — all matches, priority order. -/
def pctNum (l : List Char) : List (List Char × List Char) :=
  (optCharCl signCl l).flatMap fun ar =>
  (many1Cl numCl ar.2).flatMap fun br =>
  (optCharCl (· = '%') br.2).map fun cr =>
  (ar.1 ++ br.1 ++ cr.1, cr.2)

/-- The single-character dash alternative. -/
def dashTok : List Char → List (List Char × List Char)
  | [] => []
  | c :: r => if dashCl c then [([c], r)] else []

/-- The literal `N/A` alternative. -/
def naTok : List Char → List (List Char × List Char)
  | 'N' :: '/' :: 'A' :: r => [(['N', '/', 'A'], r)]
  | _ => []

/-- Group 3 / group 4 content: left-biased alternation of the three
alternatives. -/
def pctTok (l : List Char) : List (List Char × List Char) :=
  pctNum l ++ dashTok l ++ naTok l

/-- `(?:(pct)\s+)?` — a greedy optional group: all ways with the group
present (content capture, then `\s+`), then the absent case. -/
def optPctGroup (l : List Char) : List (Option (List Char) × List Char) :=
  ((pctTok l).flatMap fun gr =>
    (many1Cl wsCl gr.2).map fun wr => (some gr.1, wr.2)) ++ [(none, l)]

/-- `\d*\.?\d+` — all matches, priority order. -/
def vtmrTok (l : List Char) : List (List Char × List Char) :=
  (many0Cl isDig l).flatMap fun ar =>
  (optCharCl (· = '.') ar.2).flatMap fun br =>
  (many1Cl isDig br.2).map fun cr =>
  (ar.1 ++ br.1 ++ cr.1, cr.2)

/-- First (backtracking-priority) match of the whole pattern anchored at
the start of `l`, if any. -/
def finMatchAt (l : List Char) : Option FinGroups :=
  firstSome (moneyTok l) fun m1 =>
  firstSome (many1Cl wsCl m1.2) fun w1 =>
  firstSome (moneyTok w1.2) fun m2 =>
  firstSome (many1Cl wsCl m2.2) fun w2 =>
  firstSome (optPctGroup w2.2) fun p3 =>
  firstSome (optPctGroup p3.2) fun p4 =>
  firstSome (vtmrTok p4.2) fun v =>
  some ⟨m1.1, m2.1, p3.1, p4.1, v.1⟩

/-- `FINANCIAL_PATTERN.search`: leftmost start position wins, then
backtracking priority at that position. -/
def finSearch : List Char → Option FinGroups
  | [] => finMatchAt []
  | l@(_ :: t) =>
    match finMatchAt l with
    | some g => some g
    | none => finSearch t

/-! ## Python `float(...)` acceptance and value, on the shapes this code
feeds it

Group 5 of the pattern only ever produces `\d*\.?\d+` shapes (no letters),
so Python's `float()` exponent/`inf`/`nan` forms are irrelevant there; the
model covers `sign? (digits ['.' digits*] | '.' digits+)`, which is the
fragment exercised by the code, and yields an exact rational (Python's
IEEE-754 rounding is idealised away — no claim depends on it). -/

/-- `digits ['.' digits*] | '.' digits+ | digits` shape check. -/
def digitsDotDigits (l : List Char) : Bool :=
  let d1 := l.takeWhile isDig
  let r1 := l.dropWhile isDig
  match r1 with
  | [] => !d1.isEmpty
  | '.' :: r2 =>
    let d2 := r2.takeWhile isDig
    let r3 := r2.dropWhile isDig
    r3.isEmpty && (!d1.isEmpty || !d2.isEmpty)
  | _ => false

/-- Does `float(s)` succeed (on the exponent-free fragment)? -/
def pyFloatOk (l : List Char) : Bool :=
  match l with
  | [] => digitsDotDigits []
  | c :: r => if c = '+' || c = '-' then digitsDotDigits r
              else digitsDotDigits (c :: r)

/-- Decimal value of a digit string. -/
def digitsVal (l : List Char) : ℕ :=
  l.foldl (fun n c => 10 * n + (c.toNat - 48)) 0

/-- Value of an unsigned `digits ['.' digits]` mantissa. -/
def mantissaVal (l : List Char) : ℚ :=
  let d1 := l.takeWhile isDig
  let r1 := l.dropWhile isDig
  match r1 with
  | '.' :: r2 => (digitsVal d1 : ℚ) + (digitsVal (r2.takeWhile isDig) : ℚ) / 10 ^ (r2.takeWhile isDig).length
  | _ => (digitsVal d1 : ℚ)

/-- Value `float(s)` returns on the fragment above. -/
def pyFloatVal (l : List Char) : ℚ :=
  match l with
  | '+' :: r => mantissaVal r
  | '-' :: r => -(mantissaVal r)
  | _ => mantissaVal l

/-! ## Line classification (`PDFParser._parse_page_smart`, first loop) -/

/-- Python substring test `needle in hay`. -/
def containsSub (needle : List Char) : List Char → Bool
  | [] => needle.isEmpty
  | c :: t => needle.isPrefixOf (c :: t) || containsSub needle t

/-- `PDFParser.IGNORE_KEYWORDS` (a set in the source; order immaterial for
the `any` test). -/
def IGNORE_KEYWORDS : List String :=
  ["page", "coinalyze", "contract", "filter", "column",
   "mkt cap", "vol 24h", "vtmr", "coins", "all contracts", "custom metrics", "watchlists"]

/-- Python `str.isdigit()` (ASCII model): nonempty and all digits. -/
def pyIsDigitStr (l : List Char) : Bool := !l.isEmpty && l.all isDig

/-- One entry of the `financials` list: strings
`(mc, vol, vtmr, oi_str, fund_str)`. -/
structure FinTuple where
  mc : String
  vol : String
  vtmr : String
  oi : Option String
  fund : Option String
deriving DecidableEq, Repr

/-- `.replace('$', '').replace(',', '')`. -/
def stripDC (l : List Char) : List Char :=
  l.filter (fun c => !(c = '$' || c = ','))

/-- Build the appended financial tuple from the match groups. -/
def mkFinTuple (g : FinGroups) : FinTuple :=
  ⟨String.mk (stripDC g.g1), String.mk (stripDC g.g2), String.mk g.g5,
   g.g3.map String.mk, g.g4.map String.mk⟩

/-- Where one line of `_parse_page_smart`'s first loop ends up. -/
inductive LineClass where
  | fin (t : FinTuple)
  | text (s : String)
  | dropped
deriving DecidableEq, Repr

/-- The first loop of `_parse_page_smart`, per line: keyword-screened
lines are skipped; a `FINANCIAL_PATTERN.search` match whose group 5
parses as a float becomes a financial tuple, otherwise the line is
reclassified as raw text; non-matching lines go to the raw-text bucket
unless purely numeric or of length ≤ 1. -/
def classifyLine (line : String) : LineClass :=
  if IGNORE_KEYWORDS.any (fun k => containsSub k.toList (line.toList.map Char.toLower)) then
    .dropped
  else
    match finSearch line.toList with
    | some g =>
      if pyFloatOk g.g5 then .fin (mkFinTuple g) else .text line
    | none =>
      if !pyIsDigitStr line.toList && line.length > 1 then .text line else .dropped

/-! ## Name/ticker pairing and row assembly -/

/-- One extracted futures row (`TokenData` in the source).  The
`make_oiss` / `make_funding_signal` HTML display strings are pure
presentation derived from the two raw captures; rows here carry the raw
captures (`oi_raw`, `fund_raw`) instead of the rendered markup. -/
structure TokenData where
  ticker : String
  name : String
  market_cap : String
  volume : String
  vtmr : ℚ
  oi_raw : Option String
  fund_raw : Option String
deriving DecidableEq, Repr

/-- The forward-cursor pairing loop of `_parse_page_smart`: if the current
line cleans to a valid ticker and the next line does too, emit
(current raw, next cleaned) and advance by 2; else if the next line cleans
to a valid ticker, emit (current raw, next cleaned) and advance by 2;
otherwise advance by 1. -/
def tokenPairs : List String → List (String × String)
  | [] => []
  | [_] => []
  | a :: b :: rest =>
    match cleanTickerStrict a, cleanTickerStrict b with
    | some _, some t => (a, t) :: tokenPairs rest
    | _, _ =>
      match cleanTickerStrict b with
      | some t => (a, t) :: tokenPairs rest
      | none => tokenPairs (b :: rest)

/-- The final loop of `_parse_page_smart`: zip the k-th (name, ticker)
pair with the k-th financial tuple (excess on either side dropped —
`limit = min(len(token_pairs), len(financials))`) and build the rows. -/
def assembleRows (pairs : List (String × String)) (financials : List FinTuple) :
    List TokenData :=
  (pairs.zip financials).map fun pt =>
    { ticker := pt.1.2, name := pt.1.1, market_cap := pt.2.mc,
      volume := pt.2.vol, vtmr := pyFloatVal pt.2.vtmr.toList,
      oi_raw := pt.2.oi, fund_raw := pt.2.fund }

/-- `PDFParser._parse_page_smart`: classify lines, pair names with
tickers, zip pairs with financial tuples. -/
def parsePageSmart (lines : List String) : List TokenData :=
  let financials := lines.filterMap fun l =>
    match classifyLine l with | .fin t => some t | _ => none
  let rawTextLines := lines.filterMap fun l =>
    match classifyLine l with | .text s => some s | _ => none
  assembleRows (tokenPairs rawTextLines) financials

/-- `PDFParser.extract` after PDF text extraction: concatenate per-page
rows, re-clean every ticker (`re.sub(r'[^A-Z0-9]', '', ...upper())`),
keep rows with ticker length > 1.  The input is the per-page line lists
`pypdf` would deliver (stripped nonempty lines). -/
def extractRows (pages : List (List String)) : List TokenData :=
  let data := pages.flatMap parsePageSmart
  (data.map fun t => { t with ticker := cleanUpper t.ticker }).filter
    fun t => t.ticker.length > 1

/-! ## VolumeVerifier (`spot_volume_tracker` processing logic,
`src/src/services/spot_engine.py`) -/

/-- One raw per-source token record (`{"symbol", "marketcap", "volume",
"source"}` dicts built by the fetchers). -/
structure MarketSnapshot where
  symbol : String
  marketcap : ℚ
  volume : ℚ
  source : String
deriving DecidableEq, Repr

/-- One verified token (the dicts appended to `verified_tokens`). -/
structure VerifiedToken where
  symbol : String
  marketcap : ℚ
  volume : ℚ
  flipping_multiple : ℚ
  source_count : ℕ
  large_cap : Bool
deriving DecidableEq, Repr

/-- The user-configurable thresholds read at the top of
`spot_volume_tracker`. -/
structure VerifierConfig where
  MIN_VTMR : ℚ
  MAX_VTMR : ℚ
  MIN_LC_VTMR : ℚ
  LC_THRESHOLD : ℚ
deriving Repr

/-- The documented defaults: 0.5 / 199.0 / 0.5 / 1_000_000_000. -/
def defaultCfg : VerifierConfig := ⟨1/2, 199, 1/2, 1000000000⟩

/-- The per-symbol-group consensus step of `spot_volume_tracker`:
sovereign CoinGecko rule when a `source == 'CG'` snapshot exists
(`next(...)` takes the first), otherwise the ≥2-source arithmetic-mean
fallback; in both paths the token is emitted only if its ratio passes the
large-cap-dependent VTMR window.  (Lean's `q / 0 = 0` stands in for the
`ZeroDivisionError` a zero consensus market cap would raise; upstream
fetchers only emit snapshots with positive market cap.) -/
def reconcileGroup (cfg : VerifierConfig) (sym : String)
    (tokens : List MarketSnapshot) : Option VerifiedToken :=
  match tokens.find? (fun t => t.source = "CG") with
  | some cg =>
    let volume := cg.volume
    let marketcap := cg.marketcap
    let ratio := volume / marketcap
    let is_large : Bool := decide (marketcap > cfg.LC_THRESHOLD)
    if (is_large = true ∧ cfg.MIN_LC_VTMR ≤ ratio ∧ ratio ≤ cfg.MAX_VTMR) ∨
       (is_large = false ∧ cfg.MIN_VTMR ≤ ratio ∧ ratio ≤ cfg.MAX_VTMR) then
      some ⟨sym, marketcap, volume, ratio, tokens.length, is_large⟩
    else none
  | none =>
    if tokens.length ≥ 2 then
      let volume := (tokens.map (·.volume)).sum / tokens.length
      let marketcap := (tokens.map (·.marketcap)).sum / tokens.length
      let ratio := volume / marketcap
      let is_large : Bool := tokens.any (fun t => decide (t.marketcap > cfg.LC_THRESHOLD))
      if (is_large = true ∧ cfg.MIN_LC_VTMR ≤ ratio ∧ ratio ≤ cfg.MAX_VTMR) ∨
         (is_large = false ∧ cfg.MIN_VTMR ≤ ratio ∧ ratio ≤ cfg.MAX_VTMR) then
        some ⟨sym, marketcap, volume, ratio, tokens.length, is_large⟩
      else none
    else none

/-- Symbols in first-occurrence order — the iteration order of the
`all_data` dict built with `setdefault`. -/
def symbolsOf (raw : List MarketSnapshot) : List String :=
  raw.foldl (fun acc t => if t.symbol ∈ acc then acc else acc ++ [t.symbol]) []

/-- The whole verifier: group the raw snapshot multiset by symbol
(insertion order, each group in arrival order) and reconcile each group.
The final `sorted(..., reverse=True)` only permutes this list. -/
def volumeVerifier (cfg : VerifierConfig) (raw : List MarketSnapshot) :
    List VerifiedToken :=
  (symbolsOf raw).filterMap fun s =>
    reconcileGroup cfg s (raw.filter (·.symbol = s))

/-! ## CrossMarketReconciler (`DataProcessor.generate_html_report`) -/

/-- One row of the loaded spot table, after `load_spot`'s column
normalisation (`ticker`, `spot_mc`, `spot_vol`, `spot_flip`; all values
arrive as text). -/
structure SpotRow where
  ticker : String
  spot_mc : String
  spot_vol : String
  spot_flip : String
deriving DecidableEq, Repr

/-- The high-quality futures filter: `valid_futures[vtmr >= 0.50]`. -/
def validFutures (futures : List TokenData) : List TokenData :=
  futures.filter fun f => (1 : ℚ)/2 ≤ f.vtmr

/-- `pd.merge(spot_df, valid_futures, on='ticker', how='inner')`: every
(spot row, valid futures row) pair agreeing on ticker, left-row-major. -/
def mergedRows (spot : List SpotRow) (futures : List TokenData) :
    List (SpotRow × TokenData) :=
  spot.flatMap fun s =>
    ((validFutures futures).filter fun f => f.ticker = s.ticker).map fun f => (s, f)

/-- `valid_futures[~ticker.isin(spot_df['ticker'])]`. -/
def futuresOnlyRows (spot : List SpotRow) (futures : List TokenData) :
    List TokenData :=
  (validFutures futures).filter fun f => ¬ spot.any fun s => s.ticker = f.ticker

/-- `float(str(spot_flip).replace('x', '', case=False))` as an option:
strip every `x`/`X`, then parse (exponent-free `float` fragment). -/
def parseFlip (s : String) : Option ℚ :=
  let l := s.toList.filter fun c => !(c = 'x' || c = 'X')
  if pyFloatOk l then some (pyFloatVal l) else none

/-- `spot_only`: spot rows whose ticker is absent from the merged table;
then the `try` block filters to flip ≥ 0.50 and sorts descending, but if
any flip value fails to parse the `astype(float)` raises and the
`except: pass` leaves the unfiltered rows. -/
def spotOnlyRows (spot : List SpotRow) (futures : List TokenData) :
    List SpotRow :=
  let base := spot.filter fun s =>
    ¬ (mergedRows spot futures).any fun p => p.1.ticker = s.ticker
  if base.all fun s => (parseFlip s.spot_flip).isSome then
    List.insertionSort
      (fun a b => (parseFlip b.spot_flip).getD 0 ≤ (parseFlip a.spot_flip).getD 0)
      (base.filter fun s => (1 : ℚ)/2 ≤ (parseFlip s.spot_flip).getD 0)
  else base

/-- The three tables the report renders. -/
structure ReportTables where
  both_markets : List (SpotRow × TokenData)
  futures_only : List TokenData
  spot_only : List SpotRow
deriving DecidableEq, Repr

/-- `DataProcessor.generate_html_report`, with the HTML/CSS rendering
abstracted to the three tables it displays: `None` on an empty input
table, otherwise the merged / futures-only / spot-only partition
(`sort_values(..., ascending=False)` modelled by a descending insertion
sort; tie order is immaterial to every claim below). -/
def generateHtmlReport (futures : List TokenData) (spot : List SpotRow) :
    Option ReportTables :=
  if futures.isEmpty || spot.isEmpty then none
  else some
    { both_markets :=
        List.insertionSort (fun a b => b.2.vtmr ≤ a.2.vtmr) (mergedRows spot futures)
      futures_only :=
        List.insertionSort (fun a b => b.vtmr ≤ a.vtmr) (futuresOnlyRows spot futures)
      spot_only := spotOnlyRows spot futures }

/-! ## Helper lemmas -/

/-- `Char.toUpper` fixes `[A-Z0-9]`. -/
theorem upAl_toUpper_fixed (c : Char) (h : upAl c = true) : c.toUpper = c := by
  have h' : c.toNat ≤ 90 ∨ c.toNat ≤ 57 := by
    simp [upAl] at h
    omega
  unfold Char.toUpper
  rw [if_neg]
  omega

/-- `cleanUpper` fixes strings of `[A-Z0-9]` characters. -/
theorem cleanUpper_fixed (s : String) (h : ∀ c ∈ s.toList, upAl c = true) :
    cleanUpper s = s := by
  obtain ⟨l⟩ := s
  unfold cleanUpper
  have h1 : (String.mk l).toList = l := rfl
  rw [h1] at h ⊢
  have h2 : l.map Char.toUpper = l := by
    have := List.map_congr_left (f := Char.toUpper) (g := id)
      (fun a ha => upAl_toUpper_fixed a (h a ha))
    simpa using this
  rw [h2, List.filter_eq_self.mpr h]

/-- What a successful `_clean_ticker_strict` guarantees about its output
and input. -/
theorem cleanTickerStrict_spec (s t : String) (h : cleanTickerStrict s = some t) :
    (∀ c ∈ t.toList, upAl c = true) ∧ 2 ≤ t.length ∧ t.length ≤ 12 ∧
      s.length ≤ 15 ∧ cleanUpper s = t := by
  unfold cleanTickerStrict at h
  by_cases h15 : s.length > 15
  · rw [if_pos h15] at h
    exact Option.noConfusion h
  · rw [if_neg h15] at h
    by_cases hb : 2 ≤ (cleanUpper s).length ∧ (cleanUpper s).length ≤ 12
    · rw [if_pos hb] at h
      cases h
      refine ⟨?_, hb.1, hb.2, by omega, rfl⟩
      intro c hc
      exact (List.mem_filter.mp hc).2
    · rw [if_neg hb] at h
      exact Option.noConfusion h

/-- `find?` returns the designated element when it is the unique one
satisfying the predicate. -/
theorem find?_eq_some_of_unique {α : Type} {p : α → Bool} {l : List α} {s : α}
    (hmem : s ∈ l) (hp : p s = true) (huniq : ∀ t ∈ l, p t = true → t = s) :
    l.find? p = some s := by
  induction l with
  | nil => cases hmem
  | cons a t ih =>
    by_cases hpa : p a = true
    · rw [List.find?_cons_of_pos (l := t) hpa]
      rw [huniq a (List.mem_cons_self a t) hpa]
    · rw [List.find?_cons_of_neg (l := t) hpa]
      apply ih
      · rcases List.mem_cons.mp hmem with rfl | hmem2
        · exact absurd hp hpa
        · exact hmem2
      · intro x hx hpx
        exact huniq x (List.mem_cons_of_mem a hx) hpx

/-- Every ticker emitted by the pairing loop is the successful
`_clean_ticker_strict` of some candidate line. -/
theorem tokenPairs_sub (l : List String) :
    ∀ n t : String, (n, t) ∈ tokenPairs l →
      ∃ b, b ∈ l ∧ cleanTickerStrict b = some t := by
  induction l using tokenPairs.induct with
  | case1 =>
    intro n t h
    simp [tokenPairs] at h
  | case2 s =>
    intro n t h
    simp [tokenPairs] at h
  | case3 a b rest v tb hb ha ih =>
    intro n t h
    simp only [tokenPairs, ha, hb, List.mem_cons] at h
    rcases h with h | h
    · exact ⟨b, List.mem_cons_of_mem a (List.mem_cons_self b rest),
        by rw [hb]; exact congrArg some (congrArg Prod.snd h).symm⟩
    · obtain ⟨c, hc, hcc⟩ := ih n t h
      exact ⟨c, List.mem_cons_of_mem a (List.mem_cons_of_mem b hc), hcc⟩
  | case4 a b rest tb hb hcontra ih =>
    intro n t h
    have ha : cleanTickerStrict a = none := by
      cases h' : cleanTickerStrict a with
      | none => rfl
      | some v => exact (hcontra v tb h' hb).elim
    simp only [tokenPairs, ha, hb, List.mem_cons] at h
    rcases h with h | h
    · exact ⟨b, List.mem_cons_of_mem a (List.mem_cons_self b rest),
        by rw [hb]; exact congrArg some (congrArg Prod.snd h).symm⟩
    · obtain ⟨c, hc, hcc⟩ := ih n t h
      exact ⟨c, List.mem_cons_of_mem a (List.mem_cons_of_mem b hc), hcc⟩
  | case5 a b rest hb hcontra ih =>
    intro n t h
    have hred : tokenPairs (a :: b :: rest) = tokenPairs (b :: rest) := by
      cases h' : cleanTickerStrict a <;> simp [tokenPairs, h', hb]
    rw [hred] at h
    obtain ⟨c, hc, hcc⟩ := ih n t h
    exact ⟨c, List.mem_cons_of_mem a hc, hcc⟩

/-- Every row produced by `_parse_page_smart` carries a ticker that came
out of a successful `_clean_ticker_strict`. -/
theorem parsePageSmart_ticker (lines : List String) (t : TokenData)
    (h : t ∈ parsePageSmart lines) :
    ∃ b, cleanTickerStrict b = some t.ticker := by
  simp only [parsePageSmart, assembleRows, List.mem_map] at h
  obtain ⟨pt, hpt, rfl⟩ := h
  have hz := (List.of_mem_zip hpt).1
  obtain ⟨b, _, hcb⟩ := tokenPairs_sub _ pt.1.1 pt.1.2 (by simpa using hz)
  exact ⟨b, hcb⟩

/-! ## Claims -/

/-- C8: for every pair of input tables where the futures table or the
spot table is empty, `generate_html_report` returns the explicit
no-report value `None` (no exception, no report with empty tables). -/
theorem C8_empty_input_no_report (futures : List TokenData) (spot : List SpotRow)
    (h : futures = [] ∨ spot = []) : generateHtmlReport futures spot = none := by
  rcases h with rfl | rfl
  · simp [generateHtmlReport]
  · simp [generateHtmlReport]

theorem C8_empty_input_no_report_witness :
    (([] : List TokenData) = [] ∨ ([⟨"BTC", "1", "2", "0.5"⟩] : List SpotRow) = []) ∧
    generateHtmlReport [] [⟨"BTC", "1", "2", "0.5"⟩] = none :=
  ⟨Or.inl rfl, C8_empty_input_no_report _ _ (Or.inl rfl)⟩

/-- C4: the line `"$1,200,000 $900,000 +15% +2% 0.75"` (no ignore
keyword) matches `FINANCIAL_PATTERN` — groups 1/2 capture the two
currency amounts, groups 3/4 the two percentage fields, group 5 the
trailing decimal — and yields the financial tuple
`("1200000", "900000", "0.75", "+15%", "+2%")` with `$` and `,`
stripped from the first two fields. -/
theorem C4_financial_line_scenario :
    finSearch ("$1,200,000 $900,000 +15% +2% 0.75".toList) =
      some ⟨"$1,200,000".toList, "$900,000".toList,
            some "+15%".toList, some "+2%".toList, "0.75".toList⟩ ∧
    classifyLine "$1,200,000 $900,000 +15% +2% 0.75" =
      .fin ⟨"1200000", "900000", "0.75", some "+15%", some "+2%"⟩ := by
  exact ⟨by decide, by decide⟩

/-- C2: for every symbol group without an authoritative-source snapshot,
a `VerifiedToken` is emitted only if the group has ≥ 2 snapshots, and its
consensus market_cap / volume are the arithmetic means of the group's
values; and the Scenario B group (market caps 100/120, volumes 50/60)
yields consensus market_cap 110, volume 55, vtmr 0.5. -/
theorem C2_fallback_mean_consensus :
    (∀ (cfg : VerifierConfig) (sym : String) (g : List MarketSnapshot),
      (∀ t ∈ g, t.source ≠ "CG") →
      ∀ v, reconcileGroup cfg sym g = some v →
        2 ≤ g.length ∧
        v.marketcap = (g.map (fun t => t.marketcap)).sum / (g.length : ℚ) ∧
        v.volume = (g.map (fun t => t.volume)).sum / (g.length : ℚ)) ∧
    reconcileGroup defaultCfg "XYZ"
        [⟨"XYZ", 100, 50, "CMC"⟩, ⟨"XYZ", 120, 60, "LCW"⟩] =
      some ⟨"XYZ", 110, 55, 1/2, 2, false⟩ := by
  constructor
  · intro cfg sym g hnc v hv
    simp only [reconcileGroup] at hv
    split at hv
    next cg hcg =>
      have h1 : (cg.source = "CG") := by
        have := List.find?_some hcg
        simpa using this
      exact absurd h1 (hnc cg (List.mem_of_find?_eq_some hcg))
    next =>
      split at hv
      next hlen =>
        split at hv
        next =>
          cases hv
          exact ⟨hlen, rfl, rfl⟩
        next => exact Option.noConfusion hv
      next => exact Option.noConfusion hv
  · have hf : List.find? (fun t => decide (t.source = "CG"))
        [(⟨"XYZ", 100, 50, "CMC"⟩ : MarketSnapshot), ⟨"XYZ", 120, 60, "LCW"⟩] =
        none := rfl
    simp only [reconcileGroup, hf]
    norm_num [defaultCfg]

theorem C2_fallback_mean_consensus_witness :
    (∀ t ∈ ([⟨"XYZ", 100, 50, "CMC"⟩, ⟨"XYZ", 120, 60, "LCW"⟩] :
        List MarketSnapshot), t.source ≠ "CG") ∧
    2 ≤ ([⟨"XYZ", 100, 50, "CMC"⟩, ⟨"XYZ", 120, 60, "LCW"⟩] :
        List MarketSnapshot).length ∧
    (110 : ℚ) = (([⟨"XYZ", 100, 50, "CMC"⟩, ⟨"XYZ", 120, 60, "LCW"⟩] :
        List MarketSnapshot).map (fun t => t.marketcap)).sum /
        ((([⟨"XYZ", 100, 50, "CMC"⟩, ⟨"XYZ", 120, 60, "LCW"⟩] :
          List MarketSnapshot).length : ℚ)) ∧
    (55 : ℚ) = (([⟨"XYZ", 100, 50, "CMC"⟩, ⟨"XYZ", 120, 60, "LCW"⟩] :
        List MarketSnapshot).map (fun t => t.volume)).sum /
        ((([⟨"XYZ", 100, 50, "CMC"⟩, ⟨"XYZ", 120, 60, "LCW"⟩] :
          List MarketSnapshot).length : ℚ)) :=
  ⟨by decide, C2_fallback_mean_consensus.1 defaultCfg "XYZ" _ (by decide)
    ⟨"XYZ", 110, 55, 1/2, 2, false⟩ C2_fallback_mean_consensus.2⟩

/-- C1: if the authoritative CoinGecko snapshot `s` is the (single) `CG`
snapshot of a group, any emitted `VerifiedToken` carries `s`'s market_cap
and volume verbatim; and the other sources' values have no effect: any
two groups sharing that `CG` snapshot produce the same consensus
(market_cap, volume) outcome. -/
theorem C1_sovereign_source_verbatim
    (cfg : VerifierConfig) (sym : String) (g : List MarketSnapshot)
    (s : MarketSnapshot) (hmem : s ∈ g) (hsrc : s.source = "CG")
    (huniq : ∀ t ∈ g, t.source = "CG" → t = s) :
    (∀ v, reconcileGroup cfg sym g = some v →
       v.marketcap = s.marketcap ∧ v.volume = s.volume) ∧
    (∀ (sym2 : String) (g2 : List MarketSnapshot), s ∈ g2 →
       (∀ t ∈ g2, t.source = "CG" → t = s) →
       Option.map (fun v => (v.marketcap, v.volume)) (reconcileGroup cfg sym2 g2) =
       Option.map (fun v => (v.marketcap, v.volume)) (reconcileGroup cfg sym g)) := by
  have hfind : ∀ (l : List MarketSnapshot), s ∈ l →
      (∀ t ∈ l, t.source = "CG" → t = s) →
      l.find? (fun t => t.source = "CG") = some s := by
    intro l hm hu
    exact find?_eq_some_of_unique hm (by simpa using hsrc)
      (fun t ht hp => hu t ht (by simpa using hp))
  constructor
  · intro v hv
    simp only [reconcileGroup, hfind g hmem huniq] at hv
    split at hv
    next =>
      cases hv
      exact ⟨rfl, rfl⟩
    next => exact Option.noConfusion hv
  · intro sym2 g2 hmem2 huniq2
    simp only [reconcileGroup, hfind g hmem huniq, hfind g2 hmem2 huniq2]
    split
    next => rfl
    next => rfl

theorem C1_sovereign_source_verbatim_witness :
    ((⟨"ABC", 100, 60, 3/5, 2, false⟩ : VerifiedToken).marketcap = 100 ∧
     (⟨"ABC", 100, 60, 3/5, 2, false⟩ : VerifiedToken).volume = 60) ∧
    Option.map (fun v : VerifiedToken => (v.marketcap, v.volume))
        (reconcileGroup defaultCfg "ABC2"
          [⟨"ABC", 100, 60, "CG"⟩, ⟨"ABC", 7, 7, "LCW"⟩]) =
      Option.map (fun v : VerifiedToken => (v.marketcap, v.volume))
        (reconcileGroup defaultCfg "ABC"
          [⟨"ABC", 100, 60, "CG"⟩, ⟨"ABC", 999, 1, "CMC"⟩]) :=
  ⟨(C1_sovereign_source_verbatim defaultCfg "ABC"
      [⟨"ABC", 100, 60, "CG"⟩, ⟨"ABC", 999, 1, "CMC"⟩]
      ⟨"ABC", 100, 60, "CG"⟩ (by decide) rfl (by decide)).1
      ⟨"ABC", 100, 60, 3/5, 2, false⟩ (by
        have hf : List.find? (fun t => decide (t.source = "CG"))
            [(⟨"ABC", 100, 60, "CG"⟩ : MarketSnapshot), ⟨"ABC", 999, 1, "CMC"⟩] =
            some ⟨"ABC", 100, 60, "CG"⟩ := rfl
        simp only [reconcileGroup, hf]
        norm_num [defaultCfg]),
   (C1_sovereign_source_verbatim defaultCfg "ABC"
      [⟨"ABC", 100, 60, "CG"⟩, ⟨"ABC", 999, 1, "CMC"⟩]
      ⟨"ABC", 100, 60, "CG"⟩ (by decide) rfl (by decide)).2
      "ABC2" [⟨"ABC", 100, 60, "CG"⟩, ⟨"ABC", 7, 7, "LCW"⟩]
      (by decide) (by decide)⟩

/-- Concrete evaluation of the fallback consensus on the group with
market caps 1.9e9 / 1e8 (volumes equal): means are 1e9 / 1e9, ratio 1, and
`is_large` is `true` because one contributing snapshot exceeds the
threshold. -/
theorem reconcileGroup_AAA_eval :
    reconcileGroup defaultCfg "AAA"
        [⟨"AAA", 1900000000, 1900000000, "CMC"⟩,
         ⟨"AAA", 100000000, 100000000, "LCW"⟩] =
      some ⟨"AAA", 1000000000, 1000000000, 1, 2, true⟩ := by
  have hf : List.find? (fun t => decide (t.source = "CG"))
      [(⟨"AAA", 1900000000, 1900000000, "CMC"⟩ : MarketSnapshot),
       ⟨"AAA", 100000000, 100000000, "LCW"⟩] = none := rfl
  simp only [reconcileGroup, hf]
  norm_num [defaultCfg]

/-- C3 counterexample: the fallback group with market caps 1.9e9 and 1e8
(volumes equal to market caps) yields an emitted token whose `large_cap`
flag is `true` while its stored consensus market_cap (1e9) is NOT greater
than the large-cap threshold — refuting `is_large_cap ==
(market_cap > large_cap_threshold)` for the fallback path. -/
theorem C3_vtmr_largecap_counterexample :
    (volumeVerifier defaultCfg
        [⟨"AAA", 1900000000, 1900000000, "CMC"⟩,
         ⟨"AAA", 100000000, 100000000, "LCW"⟩]).map
      (fun v => (v.large_cap, decide (v.marketcap > defaultCfg.LC_THRESHOLD))) =
      [(true, false)] := by
  have hsym : symbolsOf
      [(⟨"AAA", 1900000000, 1900000000, "CMC"⟩ : MarketSnapshot),
       ⟨"AAA", 100000000, 100000000, "LCW"⟩] = ["AAA"] := rfl
  have hfil : ([(⟨"AAA", 1900000000, 1900000000, "CMC"⟩ : MarketSnapshot),
       ⟨"AAA", 100000000, 100000000, "LCW"⟩]).filter
        (fun t => decide (t.symbol = "AAA")) =
      [(⟨"AAA", 1900000000, 1900000000, "CMC"⟩ : MarketSnapshot),
       ⟨"AAA", 100000000, 100000000, "LCW"⟩] := rfl
  simp only [volumeVerifier, hsym, List.filterMap_cons, List.filterMap_nil,
    hfil, reconcileGroup_AAA_eval]
  decide

/-- C3 (amended): every emitted `VerifiedToken` has
`vtmr = volume / market_cap` computed from the stored consensus pair (both
paths); `is_large_cap` equals (stored market_cap > threshold) in the
sovereign path, but in the fallback path it equals "some contributing
snapshot's market_cap exceeds the threshold". -/
theorem C3_vtmr_largecap_amended
    (cfg : VerifierConfig) (sym : String) (g : List MarketSnapshot)
    (v : VerifiedToken) (hv : reconcileGroup cfg sym g = some v) :
    v.flipping_multiple = v.volume / v.marketcap ∧
    (∀ s, g.find? (fun t => t.source = "CG") = some s →
       v.large_cap = decide (v.marketcap > cfg.LC_THRESHOLD)) ∧
    (g.find? (fun t => t.source = "CG") = none →
       v.large_cap = g.any (fun t => decide (t.marketcap > cfg.LC_THRESHOLD))) := by
  simp only [reconcileGroup] at hv
  split at hv
  next cg hcg =>
    split at hv
    next =>
      cases hv
      exact ⟨rfl, fun s _ => rfl, fun hn => by rw [hcg] at hn; exact Option.noConfusion hn⟩
    next => exact Option.noConfusion hv
  next hnone =>
    split at hv
    next =>
      split at hv
      next =>
        cases hv
        exact ⟨rfl, fun s hs => by rw [hnone] at hs; exact Option.noConfusion hs,
               fun _ => rfl⟩
      next => exact Option.noConfusion hv
    next => exact Option.noConfusion hv

theorem C3_vtmr_largecap_amended_witness :
    reconcileGroup defaultCfg "AAA"
        [⟨"AAA", 1900000000, 1900000000, "CMC"⟩,
         ⟨"AAA", 100000000, 100000000, "LCW"⟩] =
      some ⟨"AAA", 1000000000, 1000000000, 1, 2, true⟩ ∧
    (1 : ℚ) = (1000000000 : ℚ) / 1000000000 ∧
    (true = ([⟨"AAA", (1900000000 : ℚ), 1900000000, "CMC"⟩,
              ⟨"AAA", (100000000 : ℚ), 100000000, "LCW"⟩] :
        List MarketSnapshot).any
          (fun t => decide (t.marketcap > defaultCfg.LC_THRESHOLD))) :=
  ⟨reconcileGroup_AAA_eval,
   (C3_vtmr_largecap_amended defaultCfg "AAA" _ _ reconcileGroup_AAA_eval).1,
   (C3_vtmr_largecap_amended defaultCfg "AAA" _ _ reconcileGroup_AAA_eval).2.2 rfl⟩

/-- C5: the forward-cursor pairing — two consecutive valid-ticker lines
pair as (current raw, next cleaned) advancing by 2; a valid next after an
invalid current pairs the same way; an invalid next advances by 1 and
drops the current line; and the Scenario D candidate lines
`["Bitcoin", "BTC", "Ethereum", "ETH"]` with two financial tuples yield
exactly the pairs `[("Bitcoin","BTC"), ("Ethereum","ETH")]` zipped into
two rows. -/
theorem C5_forward_cursor_pairing :
    (∀ (a b : String) (rest : List String) (ta tb : String),
      cleanTickerStrict a = some ta → cleanTickerStrict b = some tb →
      tokenPairs (a :: b :: rest) = (a, tb) :: tokenPairs rest) ∧
    (∀ (a b : String) (rest : List String) (tb : String),
      cleanTickerStrict a = none → cleanTickerStrict b = some tb →
      tokenPairs (a :: b :: rest) = (a, tb) :: tokenPairs rest) ∧
    (∀ (a b : String) (rest : List String),
      cleanTickerStrict b = none →
      tokenPairs (a :: b :: rest) = tokenPairs (b :: rest)) ∧
    tokenPairs ["Bitcoin", "BTC", "Ethereum", "ETH"] =
      [("Bitcoin", "BTC"), ("Ethereum", "ETH")] ∧
    (∀ f1 f2 : FinTuple,
      (assembleRows (tokenPairs ["Bitcoin", "BTC", "Ethereum", "ETH"]) [f1, f2]).map
          (fun r => (r.name, r.ticker)) =
        [("Bitcoin", "BTC"), ("Ethereum", "ETH")]) := by
  refine ⟨?_, ?_, ?_, by decide, fun f1 f2 => rfl⟩
  · intro a b rest ta tb ha hb
    simp [tokenPairs, ha, hb]
  · intro a b rest tb ha hb
    simp [tokenPairs, ha, hb]
  · intro a b rest hb
    cases h' : cleanTickerStrict a <;> simp [tokenPairs, h', hb]

theorem C5_forward_cursor_pairing_witness :
    tokenPairs ["Bitcoin", "BTC"] = [("Bitcoin", "BTC")] ∧
    tokenPairs ["++", "BTC"] = [("++", "BTC")] ∧
    tokenPairs ["AAPL", "+"] = tokenPairs ["+"] :=
  ⟨C5_forward_cursor_pairing.1 "Bitcoin" "BTC" [] "BITCOIN" "BTC"
      (by decide) (by decide),
   C5_forward_cursor_pairing.2.1 "++" "BTC" [] "BTC" (by decide) (by decide),
   C5_forward_cursor_pairing.2.2.1 "AAPL" "+" [] (by decide)⟩

/-- C10: `_clean_ticker_strict` returns `None` on every raw input longer
than 15 characters (even when the cleaned form would have valid length),
so a line longer than 15 raw characters is never selected as a ticker by
the pairing step — every emitted ticker comes from a line of raw length
≤ 15. -/
theorem C10_long_raw_never_ticker :
    (∀ s : String, s.length > 15 → cleanTickerStrict s = none) ∧
    (∀ (lines : List String) (n t : String), (n, t) ∈ tokenPairs lines →
      ∃ b, b ∈ lines ∧ b.length ≤ 15 ∧ cleanTickerStrict b = some t) := by
  constructor
  · intro s hs
    unfold cleanTickerStrict
    rw [if_pos hs]
  · intro lines n t h
    obtain ⟨b, hb, hcb⟩ := tokenPairs_sub lines n t h
    exact ⟨b, hb, (cleanTickerStrict_spec b t hcb).2.2.2.1, hcb⟩

theorem C10_long_raw_never_ticker_witness :
    ("A-B-C-D-E-F-G-H!" : String).length > 15 ∧
    cleanUpper "A-B-C-D-E-F-G-H!" = "ABCDEFGH" ∧
    cleanTickerStrict "A-B-C-D-E-F-G-H!" = none ∧
    (("Bitcoin", "BTC") ∈ tokenPairs ["Bitcoin", "BTC"] ∧
      ∃ b, b ∈ ["Bitcoin", "BTC"] ∧ b.length ≤ 15 ∧
        cleanTickerStrict b = some "BTC") :=
  ⟨by decide, by decide,
   C10_long_raw_never_ticker.1 "A-B-C-D-E-F-G-H!" (by decide),
   by decide,
   C10_long_raw_never_ticker.2 ["Bitcoin", "BTC"] "Bitcoin" "BTC" (by decide)⟩

/-- C6: every row in the table returned by `PDFParser.extract` has a
ticker made only of `[A-Z0-9]` characters with length in `[2, 12]`
(rows with invalid tickers were discarded upstream, not corrected). -/
theorem C6_extract_ticker_invariant (pages : List (List String))
    (row : TokenData) (h : row ∈ extractRows pages) :
    (∀ c ∈ row.ticker.toList, upAl c = true) ∧
    2 ≤ row.ticker.length ∧ row.ticker.length ≤ 12 := by
  simp only [extractRows, List.mem_filter, List.mem_map, List.mem_flatMap] at h
  obtain ⟨⟨t, ⟨lines, _, hpp⟩, rfl⟩, _⟩ := h
  obtain ⟨b, hcb⟩ := parsePageSmart_ticker lines t hpp
  obtain ⟨hchars, h2, h12, _, _⟩ := cleanTickerStrict_spec b t.ticker hcb
  have hfix : cleanUpper t.ticker = t.ticker := cleanUpper_fixed t.ticker hchars
  rw [hfix]
  exact ⟨hchars, h2, h12⟩

theorem C6_extract_ticker_invariant_witness :
    (⟨"BTC", "Bitcoin", "1", "2", pyFloatVal ("0.5".toList), none, none⟩ :
        TokenData) ∈ extractRows [["Bitcoin", "BTC", "1 2 0.5"]] ∧
    ((∀ c ∈ ("BTC" : String).toList, upAl c = true) ∧
      2 ≤ ("BTC" : String).length ∧ ("BTC" : String).length ≤ 12) :=
  have hmem : (⟨"BTC", "Bitcoin", "1", "2", pyFloatVal ("0.5".toList), none,
      none⟩ : TokenData) ∈ extractRows [["Bitcoin", "BTC", "1 2 0.5"]] := by
    have hrows : extractRows [["Bitcoin", "BTC", "1 2 0.5"]] =
        [⟨"BTC", "Bitcoin", "1", "2", pyFloatVal ("0.5".toList), none, none⟩] :=
      rfl
    rw [hrows]
    exact List.mem_singleton.mpr rfl
  ⟨hmem, C6_extract_ticker_invariant [["Bitcoin", "BTC", "1 2 0.5"]] _ hmem⟩

/-! ## Soundness of the matcher's group 5 (for C9) -/

/-- A successful `firstSome` comes from some listed alternative. -/
theorem firstSome_eq_some {α β : Type} {xs : List α} {f : α → Option β} {b : β}
    (h : firstSome xs f = some b) : ∃ a, a ∈ xs ∧ f a = some b := by
  induction xs with
  | nil => simp [firstSome] at h
  | cons a t ih =>
    rw [firstSome] at h
    cases hf : f a with
    | some c =>
      rw [hf] at h
      exact ⟨a, List.mem_cons_self a t, by rw [hf]; exact h⟩
    | none =>
      rw [hf] at h
      obtain ⟨x, hx, hfx⟩ := ih h
      exact ⟨x, List.mem_cons_of_mem a hx, hfx⟩

/-- What `p?` can consume. -/
theorem optCharCl_mem {p : Char → Bool} {l : List Char}
    {pr : List Char × List Char} (h : pr ∈ optCharCl p l) :
    pr.1 = [] ∨ ∃ c, pr.1 = [c] ∧ p c = true := by
  cases l with
  | nil =>
    simp [optCharCl] at h
    rw [h]
    exact Or.inl rfl
  | cons c rest =>
    by_cases hp : p c = true
    · simp [optCharCl, hp] at h
      rcases h with h | h
      · exact Or.inr ⟨c, by rw [h], hp⟩
      · exact Or.inl (by rw [h])
    · simp [optCharCl, hp] at h
      exact Or.inl (by rw [h])

/-- What `p+` can consume: a nonempty run of `p`-characters. -/
theorem many1Cl_mem {p : Char → Bool} {l : List Char}
    {pr : List Char × List Char} (h : pr ∈ many1Cl p l) :
    pr.1 ≠ [] ∧ ∀ c ∈ pr.1, p c = true := by
  unfold many1Cl at h
  simp only [List.mem_map, List.mem_range] at h
  obtain ⟨k, hk, rfl⟩ := h
  constructor
  · intro hnil
    have hlen := congrArg List.length hnil
    rw [List.length_take] at hlen
    simp at hlen
    omega
  · intro c hc
    exact List.mem_takeWhile_imp (List.take_subset _ _ hc)

/-- What `p*` can consume: a run of `p`-characters. -/
theorem many0Cl_mem {p : Char → Bool} {l : List Char}
    {pr : List Char × List Char} (h : pr ∈ many0Cl p l) :
    ∀ c ∈ pr.1, p c = true := by
  unfold many0Cl at h
  simp only [List.mem_map, List.mem_range] at h
  obtain ⟨k, hk, rfl⟩ := h
  intro c hc
  exact List.mem_takeWhile_imp (List.take_subset _ _ hc)

/-- `takeWhile`/`dropWhile` through an all-true prefix up to a failing
character. -/
theorem takeWhile_append_not {p : Char → Bool} (a c : List Char) (b : Char)
    (ha : ∀ x ∈ a, p x = true) (hb : p b = false) :
    (a ++ b :: c).takeWhile p = a ∧ (a ++ b :: c).dropWhile p = b :: c := by
  induction a with
  | nil => simp [List.takeWhile_cons, List.dropWhile_cons, hb]
  | cons x xs ih =>
    have hx : p x = true := ha x (List.mem_cons_self x xs)
    have := ih (fun y hy => ha y (List.mem_cons_of_mem x hy))
    simp [List.takeWhile_cons, List.dropWhile_cons, hx, this.1, this.2]

/-- `takeWhile`/`dropWhile` on an all-true list. -/
theorem takeWhile_all_eq {p : Char → Bool} (l : List Char)
    (h : ∀ x ∈ l, p x = true) :
    l.takeWhile p = l ∧ l.dropWhile p = [] := by
  induction l with
  | nil => simp
  | cons x xs ih =>
    have hx : p x = true := h x (List.mem_cons_self x xs)
    have := ih (fun y hy => h y (List.mem_cons_of_mem x hy))
    simp [List.takeWhile_cons, List.dropWhile_cons, hx, this.1, this.2]

/-- A nonempty digit string passes the float shape check. -/
theorem ddd_digits {l : List Char} (hne : l ≠ []) (h : ∀ x ∈ l, isDig x = true) :
    digitsDotDigits l = true := by
  cases l with
  | nil => exact absurd rfl hne
  | cons x xs =>
    simp only [digitsDotDigits, (takeWhile_all_eq _ h).1, (takeWhile_all_eq _ h).2]
    rfl

/-- `digits . digits+` passes the float shape check. -/
theorem ddd_dotted {a c : List Char} (ha : ∀ x ∈ a, isDig x = true)
    (hc : ∀ x ∈ c, isDig x = true) (hcne : c ≠ []) :
    digitsDotDigits (a ++ '.' :: c) = true := by
  have hdot : isDig '.' = false := by decide
  cases c with
  | nil => exact absurd rfl hcne
  | cons c0 cs =>
    simp only [digitsDotDigits, (takeWhile_append_not a _ '.' ha hdot).2,
      (takeWhile_all_eq _ hc).1, (takeWhile_all_eq _ hc).2]
    simp

/-- Any `\d* \.? \d+` decomposition passes `pyFloatOk`. -/
theorem pyFloatOk_of_shape {a b c : List Char} (ha : ∀ x ∈ a, isDig x = true)
    (hb : b = [] ∨ b = ['.']) (hc : ∀ x ∈ c, isDig x = true) (hcne : c ≠ []) :
    pyFloatOk (a ++ b ++ c) = true := by
  have notSign : ∀ x : Char, isDig x = true → (x = '+' || x = '-') = false := by
    intro x hx
    have h1 : x ≠ '+' := fun he => by rw [he] at hx; exact absurd hx (by decide)
    have h2 : x ≠ '-' := fun he => by rw [he] at hx; exact absurd hx (by decide)
    simp [h1, h2]
  rcases hb with rfl | rfl
  · have hall : ∀ x ∈ a ++ c, isDig x = true := by
      intro x hx
      rcases List.mem_append.mp hx with hx | hx
      · exact ha x hx
      · exact hc x hx
    have hne : a ++ c ≠ [] := by
      intro he
      exact hcne (List.append_eq_nil.mp he).2
    rw [List.append_nil]
    cases hac : a ++ c with
    | nil => exact absurd hac hne
    | cons h0 t0 =>
      have hd0 : isDig h0 = true := hall h0 (by rw [hac]; exact List.mem_cons_self h0 t0)
      rw [pyFloatOk, if_neg (by rw [notSign h0 hd0]; exact Bool.false_ne_true)]
      rw [← hac]
      exact ddd_digits hne hall
  · cases a with
    | nil =>
      simp only [List.nil_append, List.singleton_append]
      rw [pyFloatOk, if_neg (by decide)]
      exact ddd_dotted (a := []) (by simp) hc hcne
    | cons a0 a0s =>
      have hd0 : isDig a0 = true := ha a0 (List.mem_cons_self a0 a0s)
      have heq : (a0 :: a0s) ++ ['.'] ++ c = a0 :: (a0s ++ '.' :: c) := by simp
      rw [heq, pyFloatOk, if_neg (by rw [notSign a0 hd0]; exact Bool.false_ne_true)]
      have := ddd_dotted (a := a0 :: a0s) ha hc hcne
      simpa using this

/-- Every group-5 capture of `vtmrTok` passes `pyFloatOk`. -/
theorem vtmrTok_g5_ok {l : List Char} {pr : List Char × List Char}
    (h : pr ∈ vtmrTok l) : pyFloatOk pr.1 = true := by
  unfold vtmrTok at h
  simp only [List.mem_flatMap, List.mem_map] at h
  obtain ⟨ar, har, br, hbr, cr, hcr, heq⟩ := h
  have ha := many0Cl_mem har
  have hbo := optCharCl_mem hbr
  have hc := many1Cl_mem hcr
  have hb : br.1 = [] ∨ br.1 = ['.'] := by
    rcases hbo with hbo | ⟨c, hceq, hcp⟩
    · exact Or.inl hbo
    · refine Or.inr ?_
      rw [hceq]
      have : c = '.' := by simpa using hcp
      rw [this]
  rw [← heq]
  exact pyFloatOk_of_shape ha hb hc.2 hc.1

/-- Anchored matches deliver a float-parseable group 5. -/
theorem finMatchAt_g5 (l : List Char) (g : FinGroups)
    (h : finMatchAt l = some g) : pyFloatOk g.g5 = true := by
  unfold finMatchAt at h
  obtain ⟨m1, _, h⟩ := firstSome_eq_some h
  obtain ⟨w1, _, h⟩ := firstSome_eq_some h
  obtain ⟨m2, _, h⟩ := firstSome_eq_some h
  obtain ⟨w2, _, h⟩ := firstSome_eq_some h
  obtain ⟨p3, _, h⟩ := firstSome_eq_some h
  obtain ⟨p4, _, h⟩ := firstSome_eq_some h
  obtain ⟨v, hv, h⟩ := firstSome_eq_some h
  cases h
  exact vtmrTok_g5_ok hv

/-- Searched matches deliver a float-parseable group 5. -/
theorem finSearch_g5 : ∀ (l : List Char) (g : FinGroups),
    finSearch l = some g → pyFloatOk g.g5 = true := by
  intro l
  induction l with
  | nil =>
    intro g h
    exact finMatchAt_g5 [] g (by simpa [finSearch] using h)
  | cons c t ih =>
    intro g h
    cases hm : finMatchAt (c :: t) with
    | some g2 =>
      simp only [finSearch, hm] at h
      have h2 : g2 = g := Option.some.inj h
      subst h2
      exact finMatchAt_g5 (c :: t) g2 hm
    | none =>
      simp only [finSearch, hm] at h
      exact ih g h

/-- C9: whenever `FINANCIAL_PATTERN` matches a line, the final captured
group (`\d*\.?\d+`) parses as a float, so the `except` branch that
reclassifies a matched line as text is unreachable: every
keyword-filtered matching line becomes a financial tuple. -/
theorem C9_float_branch_unreachable :
    (∀ (l : List Char) (g : FinGroups),
      finSearch l = some g → pyFloatOk g.g5 = true) ∧
    (∀ (line : String) (g : FinGroups),
      (IGNORE_KEYWORDS.any fun k =>
        containsSub k.toList (line.toList.map Char.toLower)) = false →
      finSearch line.toList = some g →
      classifyLine line = .fin (mkFinTuple g)) := by
  refine ⟨finSearch_g5, ?_⟩
  intro line g hkw hsearch
  unfold classifyLine
  rw [if_neg (by rw [hkw]; exact Bool.false_ne_true), hsearch]
  simp only []
  rw [if_pos (by rw [finSearch_g5 line.toList g hsearch])]

theorem C9_float_branch_unreachable_witness :
    pyFloatOk (("0.5" : String).toList) = true ∧
    classifyLine "1 2 0.5" =
      .fin (mkFinTuple ⟨"1".toList, "2".toList, none, none, "0.5".toList⟩) :=
  ⟨C9_float_branch_unreachable.1 ("1 2 0.5".toList)
      ⟨"1".toList, "2".toList, none, none, "0.5".toList⟩ (by decide),
   C9_float_branch_unreachable.2 "1 2 0.5"
      ⟨"1".toList, "2".toList, none, none, "0.5".toList⟩ (by decide) (by decide)⟩

/-! ## Reconciler membership lemmas (for C7) -/

/-- What membership in the inner join means. -/
theorem mergedRows_mem {spot : List SpotRow} {futures : List TokenData}
    {pr : SpotRow × TokenData} (h : pr ∈ mergedRows spot futures) :
    pr.1 ∈ spot ∧ pr.2 ∈ validFutures futures ∧ pr.2.ticker = pr.1.ticker := by
  unfold mergedRows at h
  rw [List.mem_flatMap] at h
  obtain ⟨s, hs, h⟩ := h
  rw [List.mem_map] at h
  obtain ⟨f, hf, rfl⟩ := h
  rw [List.mem_filter] at hf
  exact ⟨hs, hf.1, by simpa using hf.2⟩

/-- The inner join contains every agreeing (spot, valid-futures) pair. -/
theorem mergedRows_intro {spot : List SpotRow} {futures : List TokenData}
    {s : SpotRow} {f : TokenData} (hs : s ∈ spot)
    (hf : f ∈ validFutures futures) (ht : f.ticker = s.ticker) :
    (s, f) ∈ mergedRows spot futures := by
  unfold mergedRows
  rw [List.mem_flatMap]
  refine ⟨s, hs, ?_⟩
  rw [List.mem_map]
  exact ⟨f, List.mem_filter.mpr ⟨hf, by simpa using ht⟩, rfl⟩

/-- Futures-only rows are valid futures rows with no spot ticker match. -/
theorem futuresOnlyRows_mem {spot : List SpotRow} {futures : List TokenData}
    {f : TokenData} (h : f ∈ futuresOnlyRows spot futures) :
    f ∈ validFutures futures ∧ ∀ s ∈ spot, ¬ s.ticker = f.ticker := by
  unfold futuresOnlyRows at h
  rw [List.mem_filter] at h
  refine ⟨h.1, ?_⟩
  have h2 := h.2
  simp [List.any_eq_true] at h2
  exact h2

/-- Spot-only rows are spot rows whose ticker is absent from the merged
table (in both the filtered-and-sorted and the except-pass branches). -/
theorem spotOnlyRows_mem {spot : List SpotRow} {futures : List TokenData}
    {s : SpotRow} (h : s ∈ spotOnlyRows spot futures) :
    s ∈ spot ∧ ∀ pr ∈ mergedRows spot futures, ¬ pr.1.ticker = s.ticker := by
  have hbase : s ∈ spot.filter (fun s => ¬ (mergedRows spot futures).any
      fun p => p.1.ticker = s.ticker) := by
    simp only [spotOnlyRows] at h
    split at h
    · have h2 := (List.perm_insertionSort _ _).mem_iff.mp h
      exact (List.mem_filter.mp h2).1
    · exact h
  rw [List.mem_filter] at hbase
  refine ⟨hbase.1, ?_⟩
  have h2 := hbase.2
  simp [List.any_eq_true] at h2
  exact fun pr hpr => h2 pr.1 pr.2 hpr

/-- C7: the three report tables are pairwise disjoint by ticker, and a
ticker present in both the spot set and the vtmr-filtered futures set
appears in exactly one of them (the both-markets table). -/
theorem C7_partition_disjoint (futures : List TokenData) (spot : List SpotRow)
    (rpt : ReportTables) (h : generateHtmlReport futures spot = some rpt) :
    (∀ t, t ∈ rpt.both_markets.map (fun p => p.2.ticker) →
       t ∉ rpt.futures_only.map (fun f => f.ticker)) ∧
    (∀ t, t ∈ rpt.both_markets.map (fun p => p.2.ticker) →
       t ∉ rpt.spot_only.map (fun s => s.ticker)) ∧
    (∀ t, t ∈ rpt.futures_only.map (fun f => f.ticker) →
       t ∉ rpt.spot_only.map (fun s => s.ticker)) ∧
    (∀ t, (∃ s ∈ spot, s.ticker = t) →
       (∃ f ∈ validFutures futures, f.ticker = t) →
       t ∈ rpt.both_markets.map (fun p => p.2.ticker) ∧
       t ∉ rpt.futures_only.map (fun f => f.ticker) ∧
       t ∉ rpt.spot_only.map (fun s => s.ticker)) := by
  unfold generateHtmlReport at h
  split at h
  next => exact Option.noConfusion h
  next =>
    cases h
    have hA : ∀ t, t ∈ (List.insertionSort (fun a b => b.2.vtmr ≤ a.2.vtmr)
        (mergedRows spot futures)).map (fun p => p.2.ticker) →
        ∃ pr ∈ mergedRows spot futures, pr.2.ticker = t := by
      intro t ht
      rw [List.mem_map] at ht
      obtain ⟨pr, hpr, rfl⟩ := ht
      exact ⟨pr, (List.perm_insertionSort _ _).mem_iff.mp hpr, rfl⟩
    have part1 : ∀ t, t ∈ (List.insertionSort (fun a b => b.2.vtmr ≤ a.2.vtmr)
        (mergedRows spot futures)).map (fun p => p.2.ticker) →
        t ∉ (List.insertionSort (fun a b => b.vtmr ≤ a.vtmr)
          (futuresOnlyRows spot futures)).map (fun f => f.ticker) := by
      intro t ht hf
      obtain ⟨pr, hpr, hprt⟩ := hA t ht
      obtain ⟨hp1, _, hp3⟩ := mergedRows_mem hpr
      rw [List.mem_map] at hf
      obtain ⟨f, hfm, hft⟩ := hf
      have hfo := futuresOnlyRows_mem ((List.perm_insertionSort _ _).mem_iff.mp hfm)
      apply hfo.2 pr.1 hp1
      rw [hp3] at hprt
      rw [hprt, hft]
    have part2 : ∀ t, t ∈ (List.insertionSort (fun a b => b.2.vtmr ≤ a.2.vtmr)
        (mergedRows spot futures)).map (fun p => p.2.ticker) →
        t ∉ (spotOnlyRows spot futures).map (fun s => s.ticker) := by
      intro t ht hs
      obtain ⟨pr, hpr, hprt⟩ := hA t ht
      obtain ⟨hp1, _, hp3⟩ := mergedRows_mem hpr
      rw [List.mem_map] at hs
      obtain ⟨s, hsm, hst⟩ := hs
      have hso := spotOnlyRows_mem hsm
      apply hso.2 pr hpr
      rw [hp3] at hprt
      rw [hprt, hst]
    have part3 : ∀ t, t ∈ (List.insertionSort (fun a b => b.vtmr ≤ a.vtmr)
        (futuresOnlyRows spot futures)).map (fun f => f.ticker) →
        t ∉ (spotOnlyRows spot futures).map (fun s => s.ticker) := by
      intro t ht hs
      rw [List.mem_map] at ht
      obtain ⟨f, hfm, hft⟩ := ht
      have hfo := futuresOnlyRows_mem ((List.perm_insertionSort _ _).mem_iff.mp hfm)
      rw [List.mem_map] at hs
      obtain ⟨s, hsm, hst⟩ := hs
      have hso := spotOnlyRows_mem hsm
      apply hfo.2 s hso.1
      rw [hst, hft]
    refine ⟨part1, part2, part3, ?_⟩
    intro t hs hf
    obtain ⟨s, hsmem, hst⟩ := hs
    obtain ⟨f, hfmem, hft⟩ := hf
    have hm : (s, f) ∈ mergedRows spot futures :=
      mergedRows_intro hsmem hfmem (by rw [hft, hst])
    have hboth : t ∈ (List.insertionSort (fun a b => b.2.vtmr ≤ a.2.vtmr)
        (mergedRows spot futures)).map (fun p => p.2.ticker) := by
      rw [List.mem_map]
      exact ⟨(s, f), (List.perm_insertionSort _ _).mem_iff.mpr hm, hft⟩
    exact ⟨hboth, part1 t hboth, part2 t hboth⟩

unseal Rat.add Rat.mul Rat.inv in
theorem C7_partition_disjoint_witness :
    generateHtmlReport [⟨"BTC", "Bitcoin", "1", "2", 1, none, none⟩]
        [⟨"BTC", "1", "2", "0.9"⟩] =
      some ⟨[(⟨"BTC", "1", "2", "0.9"⟩,
              ⟨"BTC", "Bitcoin", "1", "2", 1, none, none⟩)], [], []⟩ ∧
    ("BTC" ∈ (⟨[(⟨"BTC", "1", "2", "0.9"⟩,
              ⟨"BTC", "Bitcoin", "1", "2", 1, none, none⟩)], [], []⟩ :
        ReportTables).both_markets.map (fun p => p.2.ticker) ∧
     "BTC" ∉ (⟨[(⟨"BTC", "1", "2", "0.9"⟩,
              ⟨"BTC", "Bitcoin", "1", "2", 1, none, none⟩)], [], []⟩ :
        ReportTables).futures_only.map (fun f => f.ticker) ∧
     "BTC" ∉ (⟨[(⟨"BTC", "1", "2", "0.9"⟩,
              ⟨"BTC", "Bitcoin", "1", "2", 1, none, none⟩)], [], []⟩ :
        ReportTables).spot_only.map (fun s => s.ticker)) :=
  have hrep : generateHtmlReport [⟨"BTC", "Bitcoin", "1", "2", 1, none, none⟩]
      [⟨"BTC", "1", "2", "0.9"⟩] =
      some ⟨[(⟨"BTC", "1", "2", "0.9"⟩,
              ⟨"BTC", "Bitcoin", "1", "2", 1, none, none⟩)], [], []⟩ := by decide
  ⟨hrep,
   (C7_partition_disjoint _ _ _ hrep).2.2.2 "BTC"
     ⟨⟨"BTC", "1", "2", "0.9"⟩, by decide, rfl⟩
     ⟨⟨"BTC", "Bitcoin", "1", "2", 1, none, none⟩, by decide, rfl⟩⟩

end QuantVat
